import Mathlib

/-!
Shallow embedding of the algorithmic core of the scikit-cosmo sources:
`src/examples/neighbors/sparse-kde.py` (quick-shift refinement, probability-model
generation, the `rij` periodic displacement helper) and
`src/skcosmo/utils/pcovr_utils.py` (PCovR covariance and kernel utilities).

Modelling conventions, used consistently throughout this file:

* Floating-point numbers are represented by `ℚ`.  Transcendental primitives
  that the Python code takes from numpy (`np.cos`, `np.sin`, `np.sqrt`,
  `np.log`) are passed as explicit function parameters `qcos qsin qsqrt qlog :
  ℚ → ℚ`; every theorem quantifies over them, so nothing proved depends on the
  behaviour of these external primitives.
* The source stores probability densities in log space and uses them only
  through `np.exp(logsumexp(s) - logsumexp(t))`, through `np.argmax`, and
  through `logsumexp` itself.  We represent every such array in linear space:
  a Lean entry `p i` stands for `exp(probs[i])` of the Python array.  Under this
  (injective, strictly monotone) reparameterisation
  `exp(logsumexp(probs[mask]) - logsumexp(probs))` is exactly
  `maskedSum probs mask / probs.sum`, `logsumexp probs` is `qlog probs.sum`,
  and `argmax` is unchanged; the embedding is faithful point for point.
* The metric used inside `quick_shift_refinement` only feeds `<` comparisons,
  so it is embedded by the squared periodic Euclidean distance (squaring is
  strictly monotone on distances and preserves every comparison the code makes).
* numpy arrays are embedded as `List ℚ` / `List (List ℚ)` / `List ℕ`;
  out-of-range reads use `getD` defaults.  In-place mutation is embedded by
  explicit state passing through folds, one fold step per loop iteration.
* `np.round` rounds half to even; this is embedded exactly (`roundHalfEven`).
* A raised `ValueError` is embedded as `Except.error`; a function that returns
  normally produces `Except.ok`.  Because the embedding is pure, an error
  leaves the caller's arrays untouched, exactly as a Python `raise` placed
  before the first mutation does.
-/

/-- Number of columns of a 2-D array, `X.shape[1]` (rows are uniform length in
numpy, so the head row's length is the shape). -/
def ncols (x : List (List ℚ)) : ℕ :=
  (x.headD []).length

/-- `np.zeros((r, c))`. -/
def zeros (r c : ℕ) : List (List ℚ) :=
  List.replicate r (List.replicate c (0 : ℚ))

/-- Sum of `probs[labels == c]` (linear-space representation of
`logsumexp(probs[labels == c])`, see file header). -/
def maskedSum (probs : List ℚ) (labels : List ℕ) (c : ℕ) : ℚ :=
  ((List.range probs.length).map
    (fun i => if labels.getD i 0 = c then probs.getD i 0 else 0)).sum

/-- `np.sum(labels == c)`: how many entries of `labels` equal `c`. -/
def countMembers (labels : List ℕ) (c : ℕ) : ℕ :=
  (labels.filter (fun v => v == c)).length

/-- Mass fraction of the cluster rooted at `c`:
`np.exp(logsumexp(probs[labels == c]) - logsumexp(probs))` in linear space. -/
def massFrac (probs : List ℚ) (labels : List ℕ) (c : ℕ) : ℚ :=
  maskedSum probs labels c / probs.sum

/-- `np.round` on a scalar: round to the nearest integer, ties to even. -/
def roundHalfEven (q : ℚ) : ℤ :=
  if q - ⌊q⌋ < 1/2 then ⌊q⌋
  else if 1/2 < q - ⌊q⌋ then ⌊q⌋ + 1
  else if ⌊q⌋ % 2 = 0 then ⌊q⌋ else ⌊q⌋ + 1

/-- `rij` from `sparse-kde.py` (lines 150-156): the displacement vector
`xi - xj`, with each coordinate reduced by `np.round(xij / period) * period`
when a period vector is supplied. -/
def rij (period : Option (List ℚ)) (xi xj : List ℚ) : List ℚ :=
  let xij := (xi.zip xj).map (fun p => p.1 - p.2)
  match period with
  | none => xij
  | some P => (xij.zip P).map
      (fun dp => dp.1 - (roundHalfEven (dp.1 / dp.2) : ℚ) * dp.2)

/-- Squared (periodic) Euclidean distance between two points.  The code's
metric is the square root of this; all comparisons the code makes with it are
preserved by squaring. -/
def sqDist (cell : Option (List ℚ)) (a b : List ℚ) : ℚ :=
  ((rij cell a b).map (fun t => t * t)).sum

/-- `np.argmax(np.ma.array(probs, mask=labels != c))`: the first index
attaining the maximum of `probs` among indices whose label is `c` (0 if the
member set is empty, matching the numpy fill behaviour on fully masked input). -/
def maskedArgmax (probs : List ℚ) (labels : List ℕ) (c : ℕ) : ℕ :=
  ((((List.range probs.length).filter (fun i => labels.getD i 0 == c)).argmax
      (fun i => probs.getD i 0)).getD 0)

/-- `np.concatenate(np.argwhere(labels == np.arange(len(labels))))`: the
indices that are their own label (cluster roots), in increasing order. -/
def selfRooted (labels : List ℕ) : List ℕ :=
  (List.range labels.length).filter (fun i => labels.getD i 0 == i)

/-- `True` exactly when a cell vector is supplied whose length differs from
the data dimensionality (the condition both functions raise on). -/
def cellMismatch (cell : Option (List ℚ)) (X : List (List ℚ)) : Bool :=
  match cell with
  | some c => c.length != ncols X
  | none => false

/-- One step `j` of the inner candidate search of the merge loop of
`quick_shift_refinement` (lines 285-291).  The accumulator carries
`dummd1` (`none` embeds the `np.inf` initialisation: any distance beats it)
and the current `cluster_centers_idx` array.  The guard re-tests the stale
index `k` (`staleK`), exactly as the source does. -/
def mergeInnerStep (toMerge : List Bool) (staleK : ℕ) (X : List (List ℚ))
    (cell : Option (List ℚ)) (labels : List ℕ) (d1yi1 i : ℕ)
    (acc : Option ℚ × List ℕ) (j : ℕ) : Option ℚ × List ℕ :=
  if toMerge.getD staleK false then acc
  else
    let d2 := sqDist cell (X.getD (labels.getD d1yi1 0) [])
      (X.getD (labels.getD j 0) [])
    match acc.1 with
    | none => (some d2, acc.2.set i j)
    | some best => if d2 < best then (some d2, acc.2.set i j) else acc

/-- One step `i` of the outer merge loop of `quick_shift_refinement`
(lines 280-292).  The state is `(cluster_centers_idx, labels)`.  Note the
outer guard also tests the stale `k` (`staleK`), as in the source. -/
def mergeStep (toMerge : List Bool) (staleK nk : ℕ) (X : List (List ℚ))
    (cell : Option (List ℚ)) (st : List ℕ × List ℕ) (i : ℕ) :
    List ℕ × List ℕ :=
  if !(toMerge.getD staleK false) then st
  else
    let d1yi1 := st.1.getD i 0
    let acc := (List.range nk).foldl
      (mergeInnerStep toMerge staleK X cell st.2 d1yi1 i) (none, st.1)
    (acc.2, st.2.map (fun v => if v = d1yi1 then acc.2.getD i 0 else v))

/-- One step `i` of the centre-recomputation loop of `quick_shift_refinement`
(lines 298-303): the centre at position `i` becomes the masked argmax of
`probs` over the current members of its cluster, and the members are
relabelled to it. -/
def recomputeStep (probs : List ℚ) (st : List ℕ × List ℕ) (i : ℕ) :
    List ℕ × List ℕ :=
  let d1 := st.1.getD i 0
  let newc := maskedArgmax probs st.2 d1
  (st.1.set i newc, st.2.map (fun v => if v = d1 then newc else v))

/-- The centre-recomputation pass of `quick_shift_refinement` (lines 294-303),
run after `cluster_centers_idx` has been rebuilt from the self-rooted points. -/
def recomputePass (probs : List ℚ) (cci labels : List ℕ) : List ℕ × List ℕ :=
  (List.range cci.length).foldl (recomputeStep probs) (cci, labels)

/-- `quick_shift_refinement` from `sparse-kde.py` (lines 236-305).  `cell` is
`metric_params["cell_length"]` when `metric_params` is supplied.  `toMerge`
embeds the first loop (lines 276-278): note the source sets
`to_merge[k] = dummd1 > thrpcl`, a strict greater-than.  `staleK = nk - 1` is
the value the Python loop variable `k` retains after that loop ends; the merge
loop (lines 280-292) reads `to_merge[k]` through it. -/
def quick_shift_refinement (X : List (List ℚ)) (cluster_centers_idx : List ℕ)
    (labels : List ℕ) (probs : List ℚ) (cell : Option (List ℚ))
    (thrpcl : ℚ) : Except String (List ℕ × List ℕ) :=
  if cellMismatch cell X then
    .error "Cell dimension does not match the data dimension."
  else
    let nk := cluster_centers_idx.length
    let toMerge := (List.range nk).map
      (fun k => decide (thrpcl < massFrac probs labels (cluster_centers_idx.getD k 0)))
    let staleK := nk - 1
    let st := (List.range nk).foldl (mergeStep toMerge staleK nk X cell)
      (cluster_centers_idx, labels)
    if 0 < toMerge.count true then
      .ok (recomputePass probs (selfRooted st.2) st.2)
    else
      .ok st

/-- Insert into a weakly sorted list, keeping it sorted (helper for
`uniqueSorted`). -/
def insertSorted (x : ℕ) : List ℕ → List ℕ
  | [] => [x]
  | y :: ys => if x ≤ y then x :: y :: ys else y :: insertSorted x ys

/-- `np.unique(labels)`: the distinct values of `labels` in increasing order. -/
def uniqueSorted (l : List ℕ) : List ℕ :=
  l.dedup.foldr insertSorted []

/-- Column `i` of a 2-D array. -/
def getCol (x : List (List ℚ)) (i : ℕ) : List ℚ :=
  x.map (fun row => row.getD i 0)

/-- Pointwise product sum `np.sum(a * b)` of two equal-length vectors. -/
def dotL (a b : List ℚ) : ℚ :=
  ((a.zip b).map (fun p => p.1 * p.2)).sum

/-- Modelled from the spec: `skmatter.neighbors._sparsekde._covariance` is
imported by the example but its source is not part of this repository.  Spec
§4.2: given points, non-negative weights and optional periods, return a d×d
weighted covariance matrix; non-periodic dimensions use standard weighted
second-moment formulas with the weights normalised by their sum; periodic
dimensions use the per-dimension circular variance derived from the weighted
cosine/sine sums of angular-scaled coordinates, with off-diagonal entries set
to zero. -/
def _covariance (qcos qsin : ℚ → ℚ) (x : List (List ℚ)) (ww : List ℚ)
    (cell : Option (List ℚ)) : List (List ℚ) :=
  let d := ncols x
  let W := ww.sum
  match cell with
  | none =>
    let mean := fun j => dotL ww (getCol x j) / W
    (List.range d).map (fun j => (List.range d).map (fun k =>
      (((List.range x.length).map (fun i =>
        ww.getD i 0 * ((x.getD i []).getD j 0 - mean j)
          * ((x.getD i []).getD k 0 - mean k))).sum) / W))
  | some c =>
    (List.range d).map (fun j => (List.range d).map (fun k =>
      if j = k then
        let ang := (getCol x j).map (fun v => v * (2 * 3 / c.getD j 0))
        let R2 := (dotL ww (ang.map qcos) / W) ^ 2
          + (dotL ww (ang.map qsin) / W) ^ 2
        1 - R2
      else 0))

/-- Modelled from the spec: `skmatter.utils.oas` is imported by the example but
its source is not part of this repository.  Spec §4.2: "A shrinkage (Oracle
Approximating Shrinkage) step blends the empirical covariance with a scaled
identity matrix, parameterized by an effective sample size"; the blend uses
the standard OAS shrinkage coefficient. -/
def oas (cov : List (List ℚ)) (n : ℚ) (D : ℕ) : List (List ℚ) :=
  let tr := ((List.range D).map (fun i => (cov.getD i []).getD i 0)).sum
  let trSq := ((List.range D).map (fun i =>
    ((List.range D).map (fun j => (cov.getD i []).getD j 0 ^ 2)).sum)).sum
  let phi := ((1 - 2 / (D : ℚ)) * trSq + tr ^ 2)
    / ((n + 1 - 2 / (D : ℚ)) * (trSq - tr ^ 2 / (D : ℚ)))
  (List.range D).map (fun i => (List.range D).map (fun j =>
    (1 - phi) * (cov.getD i []).getD j 0
      + (if i = j then phi * tr / (D : ℚ) else 0)))

/-- `_get_lcov_cluster` from `sparse-kde.py` (lines 387-401): member weights
are `np.exp(probs[clroots == idcl] - logsumexp(probs[clroots == idcl]))`,
in linear space `probs[i] / maskedSum probs clroots idcl`; the weighted
covariance of `x` under these weights is returned. -/
def _get_lcov_cluster (qcos qsin : ℚ → ℚ) (N : ℕ) (x : List (List ℚ))
    (clroots : List ℕ) (idcl : ℕ) (probs : List ℚ)
    (cell : Option (List ℚ)) : List (List ℚ) :=
  let normww := maskedSum probs clroots idcl
  let ww := (List.range N).map (fun i =>
    if clroots.getD i 0 = idcl then probs.getD i 0 / normww else 0)
  _covariance qcos qsin x ww cell

/-- `M[a][b] := v` on a list-of-lists matrix (no-op out of range, as `set`). -/
def setEntry (M : List (List ℚ)) (a b : ℕ) (v : ℚ) : List (List ℚ) :=
  M.set a ((M.getD a []).set b v)

/-- Entry `M[a][b]` of a list-of-lists matrix. -/
def getEntry (M : List (List ℚ)) (a b : ℕ) : ℚ :=
  (M.getD a []).getD b 0

/-- The diagonal entry written by `_get_lcov_clusterp` for one dimension: the
effective circular variance derived from the weighted cosine/sine resultant
length `r2` of the wrapped coordinates `xxi` (lines 422-426 of the source). -/
def effectiveCircularVariance (qcos qsin qsqrt : ℚ → ℚ) (ww : List ℚ)
    (nlk : ℚ) (xxi : List ℚ) : ℚ :=
  let r2 := (dotL ww (xxi.map qcos) / nlk) ^ 2
    + (dotL ww (xxi.map qsin) / nlk) ^ 2
  let re2 := (nlk / (nlk - 1)) * (r2 - 1 / nlk)
  1 / (qsqrt re2 * (2 - re2) / (1 - re2))

/-- The member weights of `_get_lcov_clusterp` (lines 413-418 of the source):
`ww = np.zeros(N); ww[clroots == idcl] = np.exp(probs[...] - logsumexp(probs));
ww *= Ntot`, in linear space `probs[i] / probs.sum * Ntot` for members, 0
otherwise. -/
def clusterpWw (N Ntot : ℕ) (clroots : List ℕ) (idcl : ℕ)
    (probs : List ℚ) : List ℚ :=
  (List.range N).map (fun i =>
    (if clroots.getD i 0 = idcl then probs.getD i 0 / probs.sum else 0)
      * (Ntot : ℚ))

/-- Coordinate column `i` wrapped by its period:
`x[:, i] - np.round(x[:, i] / cell[i]) * cell[i]` (line 421 of the source). -/
def wrappedCol (x : List (List ℚ)) (cell : List ℚ) (i : ℕ) : List ℚ :=
  (getCol x i).map (fun v =>
    v - (roundHalfEven (v / cell.getD i 0) : ℚ) * cell.getD i 0)

/-- `_get_lcov_clusterp` from `sparse-kde.py` (lines 403-428): the loop wraps
each coordinate column by its period and writes only the diagonal of an
all-zero d×d matrix, one effective circular variance per dimension. -/
def _get_lcov_clusterp (qcos qsin qsqrt : ℚ → ℚ) (N Ntot : ℕ)
    (x : List (List ℚ)) (clroots : List ℕ) (idcl : ℕ) (probs : List ℚ)
    (cell : List ℚ) : List (List ℚ) :=
  let ww := clusterpWw N Ntot clroots idcl probs
  let nlk := ww.sum
  let d := ncols x
  (List.range d).foldl (fun M i =>
    setEntry M i i (effectiveCircularVariance qcos qsin qsqrt ww nlk
      (wrappedCol x cell i)))
    (zeros d d)

/-- `_update_cluster_cov` from `sparse-kde.py` (lines 343-385).  The closure
variables `cell`, `nsamples`, `descriptors`, `descriptor_weights` are explicit
arguments.  The returned Bool records whether the single-point-cluster warning
was printed. -/
def _update_cluster_cov (qcos qsin qsqrt qlog : ℚ → ℚ)
    (cell : Option (List ℚ)) (nsamples : ℕ) (descriptors : List (List ℚ))
    (descriptor_weights : List ℚ) (X : List (List ℚ)) (k : ℕ)
    (sample_labels : List ℕ) (probs : List ℚ) (idxroot : List ℕ)
    (center_idx : List ℕ) : List (List ℚ) × Bool :=
  match cell with
  | some c =>
    let cov := _get_lcov_clusterp qcos qsin qsqrt X.length nsamples X idxroot
      (center_idx.getD k 0) probs c
    if countMembers idxroot (center_idx.getD k 0) = 1 then
      (_get_lcov_clusterp qcos qsin qsqrt nsamples nsamples descriptors
        sample_labels (center_idx.getD k 0) descriptor_weights c, true)
    else
      (cov, false)
  | none =>
    let cov := _get_lcov_cluster qcos qsin X.length X idxroot
      (center_idx.getD k 0) probs none
    let covw :=
      if countMembers idxroot (center_idx.getD k 0) = 1 then
        (_get_lcov_cluster qcos qsin nsamples descriptors sample_labels
          (center_idx.getD k 0) descriptor_weights none, true)
      else
        (cov, false)
    (oas covw.1 (qlog (maskedSum probs idxroot (center_idx.getD k 0))
      * (nsamples : ℚ)) (ncols X), covw.2)

/-- The final relabelling loop of `generate_probability_model` (lines
446-447): `for k in range(nclusters): labels[labels == center_idx[k]] = k+1`,
executed in place on the label array. -/
def relabelPass (center_idx : List ℕ) (nclusters : ℕ) (labels : List ℕ) :
    List ℕ :=
  (List.range nclusters).foldl
    (fun ls k => ls.map (fun v => if v = center_idx.getD k 0 then k + 1 else v))
    labels

/-- The tuple returned by `generate_probability_model`. -/
structure GPMResult where
  weight : List ℚ
  mean : List (List ℚ)
  cov : List (List (List ℚ))
  labels : List ℕ
deriving DecidableEq, Repr

/-- `generate_probability_model` from `sparse-kde.py` (lines 309-449).
`cluster_weight[k] = np.exp(logsumexp(probs[labels == center_idx[k]]) -
logsumexp(probs))` is `maskedSum / sum` in linear space; `cluster_mean` is
allocated with `np.zeros` and never written; the final loop relabels in place,
`labels[labels == center_idx[k]] = k + 1`. -/
def generate_probability_model (qcos qsin qsqrt qlog : ℚ → ℚ)
    (cluster_center_idx : List ℕ) (labels : List ℕ) (X : List (List ℚ))
    (descriptors : List (List ℚ)) (descriptor_labels : List ℕ)
    (descriptor_weights : List ℚ) (probs : List ℚ)
    (cell : Option (List ℚ)) : Except String GPMResult :=
  if cellMismatch cell X then
    .error "Cell dimension does not match the data dimension."
  else
    let nclusters := cluster_center_idx.length
    let nsamples := descriptors.length
    let dimension := ncols X
    let cluster_mean := zeros nclusters dimension
    let center_idx := uniqueSorted labels
    let cluster_weight := (List.range nclusters).map (fun k =>
      maskedSum probs labels (center_idx.getD k 0) / probs.sum)
    let cluster_cov := (List.range nclusters).map (fun k =>
      (_update_cluster_cov qcos qsin qsqrt qlog cell nsamples descriptors
        descriptor_weights X k descriptor_labels probs labels center_idx).1)
    let labels1 := relabelPass center_idx nclusters labels
    .ok ⟨cluster_weight, cluster_mean, cluster_cov, labels1⟩

/-- The label component of a `generate_probability_model` result (empty on
error). -/
def gpmLabels (e : Except String GPMResult) : List ℕ :=
  match e with
  | .ok r => r.labels
  | .error _ => []

/-- The mean component of a `generate_probability_model` result (empty on
error). -/
def gpmMean (e : Except String GPMResult) : List (List ℚ) :=
  match e with
  | .ok r => r.mean
  | .error _ => []

/-- Whether an `Except` result is an error (a raised exception). -/
def isErr {α : Type} (e : Except String α) : Bool :=
  match e with
  | .ok _ => false
  | .error _ => true

/-- `pcovr_covariance` from `pcovr_utils.py` (lines 39-126).  The external SVD
call and the spectral filtering built on its output (lines 94-111: `scipy`
dense SVD or `sklearn` randomized SVD, truncation of singular values below
`rcond`, assembly of the inverse square root) are packaged as the abstract
collaborator `svd_isqrt`, applied to `X`, `rcond` and `rank`; `random_state`
and `iterated_power` only parameterise that collaborator.  `C_Y.reshape` and
`np.real` are shape or type no-ops on real inputs and are omitted.  The result
pairs `C` with the optional inverse square root returned when `return_isqrt`. -/
def pcovr_covariance {n m p : ℕ}
    (svd_isqrt : Matrix (Fin n) (Fin m) ℚ → ℚ → Option ℕ →
      Matrix (Fin m) (Fin m) ℚ)
    (mixing : ℚ) (X : Matrix (Fin n) (Fin m) ℚ) (Y : Matrix (Fin n) (Fin p) ℚ)
    (rcond : ℚ) (return_isqrt : Bool) (rank : Option ℕ) :
    Matrix (Fin m) (Fin m) ℚ × Option (Matrix (Fin m) (Fin m) ℚ) :=
  let C0 : Matrix (Fin m) (Fin m) ℚ := 0
  let CI : Option (Matrix (Fin m) (Fin m) ℚ) :=
    if mixing < 1 ∨ return_isqrt = true then some (svd_isqrt X rcond rank)
    else none
  let C1 :=
    match CI with
    | some ci => C0 + (1 - mixing) • ((ci * (X.transpose * Y))
        * (ci * (X.transpose * Y)).transpose)
    | none => C0
  let C2 := if 0 < mixing then C1 + mixing • (X.transpose * X) else C1
  (C2, if return_isqrt then CI else none)

/-- `pcovr_kernel` from `pcovr_utils.py` (lines 129-172).  `kernel_params`
without a "kernel" key selects the linear kernel `X Xᵀ`; otherwise the kernel
matrix is produced by an external collaborator (`sklearn.pairwise_kernels`
with the given parameters, or `X` itself read as a precomputed kernel), both
embedded as the abstract map applied to `X` in the `some` case. -/
def pcovr_kernel {n m p : ℕ} (mixing : ℚ) (X : Matrix (Fin n) (Fin m) ℚ)
    (Y : Matrix (Fin n) (Fin p) ℚ)
    (kernel : Option (Matrix (Fin n) (Fin m) ℚ → Matrix (Fin n) (Fin n) ℚ)) :
    Matrix (Fin n) (Fin n) ℚ :=
  let K0 : Matrix (Fin n) (Fin n) ℚ := 0
  let K1 := if mixing < 1 then K0 + (1 - mixing) • (Y * Y.transpose) else K0
  if 0 < mixing then
    match kernel with
    | none => K1 + mixing • (X * X.transpose)
    | some f => K1 + mixing • f X
  else K1

/-- Claim C10: for `mixing = 1`, the PCovR utilities ignore `Y` entirely:
`pcovr_covariance` with `return_isqrt = False` returns exactly `Xᵀ X` (the
result does not depend on the SVD collaborator, so no SVD output is used and
no inverse square root is returned), and `pcovr_kernel` with no explicit
kernel returns exactly `X Xᵀ`, for all `X` and all `Y` of compatible shape. -/
theorem pcovr_mixing_one_ignores_Y {n m p : ℕ}
    (svd_isqrt : Matrix (Fin n) (Fin m) ℚ → ℚ → Option ℕ →
      Matrix (Fin m) (Fin m) ℚ)
    (X : Matrix (Fin n) (Fin m) ℚ) (Y : Matrix (Fin n) (Fin p) ℚ)
    (rcond : ℚ) (rank : Option ℕ) :
    (pcovr_covariance svd_isqrt 1 X Y rcond false rank).1 = X.transpose * X ∧
    (pcovr_covariance svd_isqrt 1 X Y rcond false rank).2 = none ∧
    pcovr_kernel 1 X Y none = X * X.transpose := by
  refine ⟨?_, ?_, ?_⟩
  · simp [pcovr_covariance]
  · simp [pcovr_covariance]
  · simp [pcovr_kernel]

/-- Claim C7: `quick_shift_refinement` and `generate_probability_model` raise
the dimension-mismatch `ValueError` exactly when a cell vector is supplied
whose length differs from the data dimensionality.  The check is the first
statement of each function, before any computation; since the embedding is
pure and the Python `raise` precedes every mutation, the input label and
centre arrays are unchanged on error. -/
theorem cell_mismatch_error_iff (qcos qsin qsqrt qlog : ℚ → ℚ)
    (X descriptors : List (List ℚ)) (cci labels dlabels : List ℕ)
    (dweights probs : List ℚ) (cell : Option (List ℚ)) (thrpcl : ℚ) :
    isErr (quick_shift_refinement X cci labels probs cell thrpcl)
      = cellMismatch cell X ∧
    isErr (generate_probability_model qcos qsin qsqrt qlog cci labels X
      descriptors dlabels dweights probs cell) = cellMismatch cell X := by
  constructor
  · unfold quick_shift_refinement
    cases h : cellMismatch cell X
    · simp only [h, Bool.false_eq_true, if_false]
      split <;> simp [isErr]
    · simp [h, isErr]
  · unfold generate_probability_model
    cases h : cellMismatch cell X <;> simp [h, isErr]

/-- Claim C9: whenever `generate_probability_model` returns normally (i.e. the
cell check passes), the returned `cluster_mean` is the all-zeros
`nclusters × dimension` matrix: it is allocated with `np.zeros` and no path of
the function ever writes to it. -/
theorem gpm_mean_always_zero (qcos qsin qsqrt qlog : ℚ → ℚ)
    (cci labels : List ℕ) (X descriptors : List (List ℚ)) (dlabels : List ℕ)
    (dweights probs : List ℚ) (cell : Option (List ℚ))
    (h : cellMismatch cell X = false) :
    gpmMean (generate_probability_model qcos qsin qsqrt qlog cci labels X
      descriptors dlabels dweights probs cell) = zeros cci.length (ncols X) := by
  unfold generate_probability_model
  simp [h, gpmMean]

/-- Witness for C9 at a concrete input: one 1-D grid point, one descriptor,
no cell vector. -/
theorem gpm_mean_always_zero_witness :
    gpmMean (generate_probability_model id id id id [0] [0] [[0]]
      [[0]] [0] [1] [1] none) = zeros 1 1 :=
  gpm_mean_always_zero id id id id [0] [0] [[0]] [[0]] [0] [1] [1] none (by decide)

/-- Claim C6: in `generate_probability_model`, for a cluster with exactly one
assigned grid point (`np.sum(idxroot == center_idx[k]) == 1`),
`_update_cluster_cov` takes the fallback path: the covariance it returns is
computed from the raw `descriptors` and their nearest-grid assignment
`sample_labels` (not from the grid points `X`), the single-point-cluster
warning is emitted (second component `true`), and no error is raised — the
function is total and still returns a covariance matrix (with the OAS
shrinkage applied on the non-periodic path, exactly as for ordinary clusters). -/
theorem update_cluster_cov_single_point_fallback (qcos qsin qsqrt qlog : ℚ → ℚ)
    (cell : Option (List ℚ)) (nsamples : ℕ) (descriptors : List (List ℚ))
    (dweights : List ℚ) (X : List (List ℚ)) (k : ℕ) (sample_labels : List ℕ)
    (probs : List ℚ) (idxroot : List ℕ) (center_idx : List ℕ)
    (h : countMembers idxroot (center_idx.getD k 0) = 1) :
    _update_cluster_cov qcos qsin qsqrt qlog cell nsamples descriptors dweights
        X k sample_labels probs idxroot center_idx =
      match cell with
      | some c => (_get_lcov_clusterp qcos qsin qsqrt nsamples nsamples
          descriptors sample_labels (center_idx.getD k 0) dweights c, true)
      | none => (oas (_get_lcov_cluster qcos qsin nsamples descriptors
          sample_labels (center_idx.getD k 0) dweights none)
          (qlog (maskedSum probs idxroot (center_idx.getD k 0)) * (nsamples : ℚ))
          (ncols X), true) := by
  unfold _update_cluster_cov
  simp only [List.getD_eq_getElem?_getD] at h
  cases cell <;> simp [h]

/-- Witness for C6 at a concrete input: a single grid point labelled by
itself, non-periodic. -/
theorem update_cluster_cov_single_point_fallback_witness :
    _update_cluster_cov id id id id none 1 [[0]] [1] [[0]] 0 [0] [1] [0] [0] =
      (oas (_get_lcov_cluster id id 1 [[0]] [0] 0 [1] none)
        (id (maskedSum [1] [0] 0) * (1 : ℚ)) (ncols [[(0 : ℚ)]]), true) :=
  update_cluster_cov_single_point_fallback id id id id none 1 [[0]] [1] [[0]] 0
    [0] [1] [0] [0] (by decide)

/-- When the stale flag is set, every inner candidate step of the merge loop
skips (`if to_merge[k]: continue` with the same stale `k` that let the outer
body run), leaving the accumulator untouched. -/
theorem mergeInnerStep_skip (toMerge : List Bool) (staleK : ℕ)
    (X : List (List ℚ)) (cell : Option (List ℚ)) (labels : List ℕ)
    (d1yi1 i : ℕ) (h : toMerge.getD staleK false = true)
    (acc : Option ℚ × List ℕ) (j : ℕ) :
    mergeInnerStep toMerge staleK X cell labels d1yi1 i acc j = acc := by
  simp only [List.getD_eq_getElem?_getD] at h
  simp [mergeInnerStep, h]

/-- The whole inner candidate search is the identity on its accumulator. -/
theorem mergeInner_fold_skip (toMerge : List Bool) (staleK : ℕ)
    (X : List (List ℚ)) (cell : Option (List ℚ)) (labels : List ℕ)
    (d1yi1 i : ℕ) (h : toMerge.getD staleK false = true)
    (acc : Option ℚ × List ℕ) (l : List ℕ) :
    l.foldl (mergeInnerStep toMerge staleK X cell labels d1yi1 i) acc = acc := by
  induction l generalizing acc with
  | nil => rfl
  | cons j l ih =>
    rw [List.foldl_cons, mergeInnerStep_skip toMerge staleK X cell labels d1yi1 i h]
    exact ih acc

/-- Each outer merge step is the identity: if the stale flag is false the body
is skipped; if it is true the inner search never updates `cluster_centers_idx`
(so `cluster_centers_idx[i]` is still `dummd1yi1`) and the relabelling
`labels[labels == dummd1yi1] = cluster_centers_idx[i]` rewrites every value to
itself. -/
theorem mergeStep_id (toMerge : List Bool) (staleK nk : ℕ) (X : List (List ℚ))
    (cell : Option (List ℚ)) (st : List ℕ × List ℕ) (i : ℕ) :
    mergeStep toMerge staleK nk X cell st i = st := by
  unfold mergeStep
  cases h : toMerge.getD staleK false
  · simp
  · simp only [h, Bool.not_true, Bool.false_eq_true, if_false]
    rw [mergeInner_fold_skip toMerge staleK X cell st.2 (st.1.getD i 0) i h]
    have hmap : st.2.map (fun v => if v = st.1.getD i 0 then st.1.getD i 0 else v)
        = st.2 := by
      have : (fun v => if v = st.1.getD i 0 then st.1.getD i 0 else v)
          = fun v : ℕ => v := by
        funext v
        split
        · omega
        · rfl
      rw [this]
      exact List.map_id st.2
    rw [hmap]

/-- The whole merge pass of `quick_shift_refinement` leaves the state
unchanged. -/
theorem mergePass_id (toMerge : List Bool) (staleK nk : ℕ) (X : List (List ℚ))
    (cell : Option (List ℚ)) (st : List ℕ × List ℕ) (l : List ℕ) :
    l.foldl (mergeStep toMerge staleK nk X cell) st = st := by
  induction l generalizing st with
  | nil => rfl
  | cons i l ih =>
    rw [List.foldl_cons, mergeStep_id]
    exact ih st

/-- Closed form of `quick_shift_refinement` when the cell check passes: the
merge loop is a no-op, and the recompute pass runs precisely when some cluster
has mass fraction strictly above `thrpcl` (the source's `to_merge` flag). -/
theorem qsr_eq (X : List (List ℚ)) (cci labels : List ℕ) (probs : List ℚ)
    (cell : Option (List ℚ)) (thrpcl : ℚ)
    (hcell : cellMismatch cell X = false) :
    quick_shift_refinement X cci labels probs cell thrpcl =
      if ∃ k, k < cci.length ∧ thrpcl < massFrac probs labels (cci.getD k 0) then
        .ok (recomputePass probs (selfRooted labels) labels)
      else
        .ok (cci, labels) := by
  simp only [quick_shift_refinement]
  rw [if_neg (by simp [hcell])]
  rw [mergePass_id]
  by_cases hex : ∃ k, k < cci.length ∧ thrpcl < massFrac probs labels (cci.getD k 0)
  · rw [if_pos hex, if_pos ?_]
    rcases hex with ⟨k, hk, hlt⟩
    rw [List.count_pos_iff]
    refine List.mem_map.2 ⟨k, List.mem_range.2 hk, ?_⟩
    simpa using hlt
  · rw [if_neg hex, if_neg ?_]
    intro hpos
    rw [List.count_pos_iff] at hpos
    rcases List.mem_map.1 hpos with ⟨k, hk, hdec⟩
    exact hex ⟨k, List.mem_range.1 hk, of_decide_eq_true hdec⟩

/-- Claim C1 (failing input): with grid points `[[0],[1]]`, two singleton
clusters rooted at 0 and 1, linear densities `[9, 1]` (mass fractions 9/10 and
1/10) and `thrpcl = 1/5`, `quick_shift_refinement` returns the input
partition unchanged even though cluster 1's mass fraction is `1/10 ≤ 1/5`: the
below-threshold cluster is not merged away (the source flags clusters with
`dummd1 > thrpcl`, the opposite of its docstring, and its merge loop tests the
stale loop variable `k`), so a surviving cluster sits at or below the
threshold, contradicting the claim and the docstring. -/
theorem qsr_below_threshold_cluster_survives :
    quick_shift_refinement [[0], [1]] [0, 1] [0, 1] [9, 1] none (1/5)
        = .ok ([0, 1], [0, 1]) ∧
      massFrac [9, 1] [0, 1] 1 ≤ 1/5 := by
  have hm0 : (1:ℚ)/5 < massFrac [9, 1] [0, 1] (([0, 1] : List ℕ).getD 0 0) := by
    norm_num [massFrac, maskedSum, List.range_succ]
  have hm1 : massFrac [9, 1] [0, 1] 1 ≤ 1/5 := by
    norm_num [massFrac, maskedSum, List.range_succ]
  refine ⟨?_, hm1⟩
  rw [qsr_eq _ _ _ _ _ _ (by rfl), if_pos ⟨0, by norm_num, hm0⟩]
  rfl

/-- Claim C2 (failing input): three singleton clusters rooted at 0, 1, 2 with
linear densities `[1, 1, 8]` and `thrpcl = 1/5`.  Clusters 0 and 1 have mass
fraction `1/10 ≤ 1/5` while cluster 2 is above threshold; per the claim the
below-threshold centres should be reassigned to the nearest non-merging centre
(2) and their members relabelled to it, yet the function returns centres
`[0, 1, 2]` and labels `[0, 1, 2]` unchanged: the inner candidate loop
re-tests the stale `to_merge[k]` and therefore skips every candidate, so no
centre is ever reassigned and no member relabelled. -/
theorem qsr_no_center_reassignment :
    quick_shift_refinement [[0], [1], [2]] [0, 1, 2] [0, 1, 2] [1, 1, 8] none
        (1/5) = .ok ([0, 1, 2], [0, 1, 2]) ∧
      massFrac [1, 1, 8] [0, 1, 2] 0 ≤ 1/5 ∧
      1/5 < massFrac [1, 1, 8] [0, 1, 2] 2 := by
  have hm2 : (1:ℚ)/5 < massFrac [1, 1, 8] [0, 1, 2]
      (([0, 1, 2] : List ℕ).getD 2 0) := by
    norm_num [massFrac, maskedSum, List.range_succ]
  have hm0 : massFrac [1, 1, 8] [0, 1, 2] 0 ≤ 1/5 := by
    norm_num [massFrac, maskedSum, List.range_succ]
  refine ⟨?_, hm0, by simpa using hm2⟩
  rw [qsr_eq _ _ _ _ _ _ (by rfl), if_pos ⟨2, by norm_num, hm2⟩]
  rfl

/-- `np.round` lands within a half of its argument. -/
theorem roundHalfEven_sub_le (q : ℚ) :
    -(1/2) ≤ q - (roundHalfEven q : ℚ) ∧ q - (roundHalfEven q : ℚ) ≤ 1/2 := by
  have hfl : (⌊q⌋ : ℚ) ≤ q := Int.floor_le q
  have hfu : q < ⌊q⌋ + 1 := Int.lt_floor_add_one q
  unfold roundHalfEven
  split
  · rename_i h1
    constructor <;> linarith
  · split
    · rename_i h1 h2
      push_cast
      constructor <;> linarith
    · split
      · rename_i h1 h2 h3
        constructor <;> linarith
      · rename_i h1 h2 h3
        push_cast
        constructor <;> linarith

/-- `np.round` of a value of absolute size at most a half is zero: strictly
inside, rounding goes to the nearest integer 0; at exactly `±1/2`, the
round-half-to-even tie rule also picks 0 (the even neighbour). -/
theorem roundHalfEven_eq_zero (q : ℚ) (h : -(1/2) ≤ q) (h2 : q ≤ 1/2) :
    roundHalfEven q = 0 := by
  rcases le_or_lt 0 q with hq | hq
  · have hfl : ⌊q⌋ = 0 := by
      rw [Int.floor_eq_iff]
      constructor <;> push_cast <;> linarith
    unfold roundHalfEven
    rw [hfl]
    rcases lt_or_eq_of_le h2 with hlt | heq
    · rw [if_pos (by push_cast; linarith)]
    · rw [if_neg (by rw [heq]; norm_num), if_neg (by rw [heq]; norm_num),
        if_pos (by norm_num)]
  · have hfl : ⌊q⌋ = -1 := by
      rw [Int.floor_eq_iff]
      constructor <;> push_cast <;> linarith
    unfold roundHalfEven
    rw [hfl]
    rcases lt_or_eq_of_le h with hlt | heq
    · rw [if_neg (by push_cast; linarith), if_pos (by push_cast; linarith)]
      norm_num
    · rw [if_neg (by rw [← heq]; norm_num), if_neg (by rw [← heq]; norm_num),
        if_neg (by norm_num)]
      norm_num

/-- The per-dimension wrap `d - round(d/p)*p` of `rij`. -/
def wrapPeriodic (d p : ℚ) : ℚ :=
  d - (roundHalfEven (d / p) : ℚ) * p

/-- The wrapped displacement lies in the closed interval `[-p/2, p/2]`. -/
theorem wrapPeriodic_mem_Icc (d p : ℚ) (hp : 0 < p) :
    -(p/2) ≤ wrapPeriodic d p ∧ wrapPeriodic d p ≤ p/2 := by
  obtain ⟨h1, h2⟩ := roundHalfEven_sub_le (d / p)
  have hw : wrapPeriodic d p = p * (d / p - (roundHalfEven (d / p) : ℚ)) := by
    field_simp [wrapPeriodic]
    ring
  constructor
  · rw [hw]
    nlinarith
  · rw [hw]
    nlinarith

/-- Wrapping never increases the squared displacement. -/
theorem wrapPeriodic_sq_le (d p : ℚ) (hp : 0 < p) :
    wrapPeriodic d p ^ 2 ≤ d ^ 2 := by
  rcases le_or_lt (|d|) (p/2) with hsmall | hbig
  · rw [abs_le] at hsmall
    have h0 : roundHalfEven (d / p) = 0 := by
      apply roundHalfEven_eq_zero
      · rw [le_div_iff₀ hp]
        nlinarith [hsmall.1]
      · rw [div_le_iff₀ hp]
        nlinarith [hsmall.2]
    simp [wrapPeriodic, h0]
  · obtain ⟨h1, h2⟩ := wrapPeriodic_mem_Icc d p hp
    have habs : |wrapPeriodic d p| ≤ |d| := by
      rw [abs_le]
      constructor <;> nlinarith [le_of_lt hbig]
    calc wrapPeriodic d p ^ 2 = |wrapPeriodic d p| ^ 2 := (sq_abs _).symm
      _ ≤ |d| ^ 2 := by
          apply pow_le_pow_left₀ (abs_nonneg _) habs
      _ = d ^ 2 := sq_abs d

/-- A displacement already no larger than half the period is unchanged by the
wrap. -/
theorem wrapPeriodic_eq_self (d p : ℚ) (hp : 0 < p) (h : |d| ≤ p/2) :
    wrapPeriodic d p = d := by
  rw [abs_le] at h
  have h0 : roundHalfEven (d / p) = 0 := by
    apply roundHalfEven_eq_zero
    · rw [le_div_iff₀ hp]
      nlinarith [h.1]
    · rw [div_le_iff₀ hp]
      nlinarith [h.2]
  simp [wrapPeriodic, h0]

/-- Sums of squares are non-negative. -/
theorem sum_sq_nonneg (l : List ℚ) : 0 ≤ (l.map (fun t => t * t)).sum := by
  apply List.sum_nonneg
  intro x hx
  rcases List.mem_map.1 hx with ⟨t, _, rfl⟩
  exact mul_self_nonneg t

/-- Wrapping each component never increases the sum of squared components. -/
theorem wrap_sum_sq_le (ds Ps : List ℚ) (hP : ∀ p ∈ Ps, 0 < p) :
    (((ds.zip Ps).map (fun dp => wrapPeriodic dp.1 dp.2)).map
        (fun t => t * t)).sum ≤ (ds.map (fun t => t * t)).sum := by
  induction ds generalizing Ps with
  | nil => simp
  | cons d ds ih =>
    cases Ps with
    | nil =>
      simpa using add_nonneg (mul_self_nonneg d) (sum_sq_nonneg ds)
    | cons p Ps =>
      simp only [List.zip_cons_cons, List.map_cons, List.sum_cons]
      have h1 : wrapPeriodic d p * wrapPeriodic d p ≤ d * d := by
        have := wrapPeriodic_sq_le d p (hP p (by simp))
        nlinarith [this]
      have h2 := ih Ps (fun q hq => hP q (by simp [hq]))
      linarith

/-- Entry `i` of the periodic `rij` is the wrap of entry `i` of the plain
difference vector by period `i`. -/
theorem rij_periodic_getD (P xi xj : List ℚ) (i : ℕ)
    (h : i < (rij (some P) xi xj).length) :
    (rij (some P) xi xj).getD i 0
      = wrapPeriodic ((rij none xi xj).getD i 0) (P.getD i 0) ∧
      P.getD i 0 ∈ P := by
  have hlen : (rij (some P) xi xj).length
      = ((((xi.zip xj).map (fun p => p.1 - p.2)).zip P)).length := by
    simp [rij]
  have hzip : i < (((xi.zip xj).map (fun p => p.1 - p.2)).zip P).length := by
    rw [← hlen]; exact h
  have hiL : i < ((xi.zip xj).map (fun p => p.1 - p.2)).length := by
    rw [List.length_zip] at hzip; omega
  have hiP : i < P.length := by
    rw [List.length_zip] at hzip; omega
  constructor
  · show (rij (some P) xi xj).getD i 0 = _
    rw [List.getD_eq_get _ _ h]
    have : rij (some P) xi xj
        = (((xi.zip xj).map (fun p => p.1 - p.2)).zip P).map
            (fun dp => wrapPeriodic dp.1 dp.2) := rfl
    rw [List.get_of_eq this, List.get_map, List.get_zip]
    show wrapPeriodic _ _ = _
    rw [rij, List.getD_eq_get _ _ hiL, List.getD_eq_get _ _ hiP]
  · rw [List.getD_eq_get _ _ hiP]
    exact List.get_mem P i hiP

/-- Claim C3 (amended): for a positive period vector `P` and points of
matching dimension, every per-dimension displacement computed by `rij` lies in
the closed range `[-P/2, P/2]` (`np.round` rounds half to even, so the value
`-P/2` itself is attained, e.g. for a raw difference of exactly `-P/2`; the
originally claimed half-open range `(-P/2, P/2]` fails at that tie); the
periodic distance never exceeds the
non-periodic Euclidean distance; and when every raw difference has absolute
value at most `P/2` the wrapped displacement equals the plain difference, so
the two distances coincide. -/
theorem rij_displacement_bounds (P xi xj : List ℚ) (hP : ∀ p ∈ P, 0 < p)
    (hl1 : xi.length = xj.length) (hl2 : xj.length = P.length) :
    (∀ i, i < (rij (some P) xi xj).length →
      -(P.getD i 0 / 2) ≤ (rij (some P) xi xj).getD i 0 ∧
        (rij (some P) xi xj).getD i 0 ≤ P.getD i 0 / 2) ∧
    Real.sqrt (sqDist (some P) xi xj) ≤ Real.sqrt (sqDist none xi xj) ∧
    ((∀ i, i < (rij none xi xj).length →
        |(rij none xi xj).getD i 0| ≤ P.getD i 0 / 2) →
      rij (some P) xi xj = rij none xi xj) := by
  refine ⟨?_, ?_, ?_⟩
  · intro i hi
    obtain ⟨hw, hmem⟩ := rij_periodic_getD P xi xj i hi
    rw [hw]
    exact wrapPeriodic_mem_Icc _ _ (hP _ hmem)
  · apply Real.sqrt_le_sqrt
    have hq : sqDist (some P) xi xj ≤ sqDist none xi xj := by
      have hrw : sqDist (some P) xi xj
          = (((((xi.zip xj).map (fun p => p.1 - p.2)).zip P).map
              (fun dp => wrapPeriodic dp.1 dp.2)).map (fun t => t * t)).sum := rfl
      rw [hrw]
      exact wrap_sum_sq_le _ P hP
    exact_mod_cast hq
  · intro hsmall
    have hlen : (rij (some P) xi xj).length = (rij none xi xj).length := by
      simp [rij, List.length_zip, List.length_map]
      omega
    apply List.ext_get hlen
    intro i h1 h2
    rw [← List.getD_eq_get _ _ h1, ← List.getD_eq_get _ _ h2]
    obtain ⟨hw, hmem⟩ := rij_periodic_getD P xi xj i h1
    rw [hw]
    exact wrapPeriodic_eq_self _ _ (hP _ hmem)
      (hsmall i (by rw [← hlen]; exact h1))

/-- Witness for C3 at a concrete input: period `[3]`, points `[0]` and `[1]`. -/
theorem rij_displacement_bounds_witness :
    (∀ p ∈ [(3 : ℚ)], 0 < p) ∧
    ((∀ i, i < (rij (some [3]) [0] [1]).length →
      -(([(3:ℚ)]).getD i 0 / 2) ≤ (rij (some [3]) [0] [1]).getD i 0 ∧
        (rij (some [3]) [0] [1]).getD i 0 ≤ ([(3:ℚ)]).getD i 0 / 2) ∧
    Real.sqrt (sqDist (some [3]) [0] [1]) ≤ Real.sqrt (sqDist none [0] [1]) ∧
    ((∀ i, i < (rij none [0] [1]).length →
        |(rij none [0] [1]).getD i 0| ≤ ([(3:ℚ)]).getD i 0 / 2) →
      rij (some [3]) [0] [1] = rij none [0] [1])) := by
  constructor
  · intro p hp
    rw [List.mem_singleton] at hp
    rw [hp]
    norm_num
  · exact rij_displacement_bounds [3] [0] [1]
      (by intro p hp; rw [List.mem_singleton] at hp; rw [hp]; norm_num)
      rfl rfl

/-- Claim C3 (counterexample to the half-open range): with period 2 and raw
difference `-1 = -P/2`, `np.round(-1/2)` rounds the tie to the even integer 0,
so the returned displacement is exactly `-1 = -P/2`, which is not in the
half-open interval `(-P/2, P/2]` the claim states. -/
theorem rij_open_interval_refuted :
    rij (some [2]) [0] [1] = [-1] ∧
      ¬ (-((2:ℚ)/2) < (rij (some [2]) [0] [1]).getD 0 0) := by
  have h0 : roundHalfEven (-(1/2) : ℚ) = 0 :=
    roundHalfEven_eq_zero _ (by norm_num) (by norm_num)
  have h1 : rij (some [2]) [0] [1] = [-1] := by
    show [(0 : ℚ) - 1 - (roundHalfEven ((0 - 1) / 2) : ℚ) * 2] = [-1]
    norm_num [h0]
  refine ⟨h1, ?_⟩
  rw [h1]
  norm_num

/-- Generic invariant lemma for a left fold over `List.range N`. -/
theorem foldl_range_invariant {σ : Type} (P : ℕ → σ → Prop) (f : σ → ℕ → σ)
    (N : ℕ) (init : σ) (h0 : P 0 init)
    (hstep : ∀ t s, t < N → P t s → P (t + 1) (f s t)) :
    P N ((List.range N).foldl f init) := by
  induction N with
  | zero => simpa using h0
  | succ n ih =>
    rw [List.range_succ, List.foldl_append, List.foldl_cons, List.foldl_nil]
    exact hstep n _ (Nat.lt_succ_self n)
      (ih (fun t s ht hp => hstep t s (ht.trans (Nat.lt_succ_self n)) hp))

/-- `getD` away from the written index is unchanged by `set`. -/
theorem getD_set_ne {α : Type} (l : List α) (n m : ℕ) (x d : α) (h : m ≠ n) :
    (l.set n x).getD m d = l.getD m d := by
  rw [List.getD_eq_getElem?_getD, List.getD_eq_getElem?_getD,
    List.getElem?_set_ne (by omega)]

/-- `getD` at the written index returns the written value (within bounds). -/
theorem getD_set_self {α : Type} (l : List α) (n : ℕ) (x d : α)
    (h : n < l.length) : (l.set n x).getD n d = x := by
  rw [List.getD_eq_getElem?_getD, List.getElem?_set_self (by omega)]
  rfl

/-- Entries outside the written cell are unchanged by `setEntry`. -/
theorem getEntry_setEntry_ne (M : List (List ℚ)) (a b : ℕ) (v : ℚ) (i j : ℕ)
    (h : i ≠ a ∨ j ≠ b) : getEntry (setEntry M a b v) i j = getEntry M i j := by
  unfold getEntry setEntry
  rcases eq_or_ne i a with rfl | hia
  · have hj : j ≠ b := by
      rcases h with h | h
      · omega
      · exact h
    rcases Nat.lt_or_ge i M.length with hi | hi
    · rw [getD_set_self _ _ _ _ hi, getD_set_ne _ _ _ _ _ hj]
    · rw [List.set_eq_of_length_le hi]
  · rw [getD_set_ne _ _ _ _ _ hia]

/-- The written cell of `setEntry` holds the written value (within bounds). -/
theorem getEntry_setEntry_self (M : List (List ℚ)) (a b : ℕ) (v : ℚ)
    (ha : a < M.length) (hb : b < (M.getD a []).length) :
    getEntry (setEntry M a b v) a b = v := by
  unfold getEntry setEntry
  rw [getD_set_self _ _ _ _ ha, getD_set_self _ _ _ _ hb]

/-- `setEntry` preserves the number of rows. -/
theorem setEntry_length (M : List (List ℚ)) (a b : ℕ) (v : ℚ) :
    (setEntry M a b v).length = M.length := by
  unfold setEntry
  exact List.length_set M a _

/-- `setEntry` preserves every row length. -/
theorem setEntry_row_length (M : List (List ℚ)) (a b : ℕ) (v : ℚ) (i : ℕ) :
    ((setEntry M a b v).getD i []).length = (M.getD i []).length := by
  unfold setEntry
  rcases eq_or_ne i a with rfl | hia
  · rcases Nat.lt_or_ge i M.length with hi | hi
    · rw [getD_set_self _ _ _ _ hi, List.length_set]
    · rw [List.set_eq_of_length_le hi]
  · rw [getD_set_ne _ _ _ _ _ hia]

/-- Every entry of `zeros` is 0. -/
theorem getEntry_zeros (r c i j : ℕ) : getEntry (zeros r c) i j = 0 := by
  unfold getEntry zeros
  rcases Nat.lt_or_ge i r with hi | hi
  · have hrow : (List.replicate r (List.replicate c (0:ℚ))).getD i []
        = List.replicate c 0 := by
      rw [List.getD_eq_getElem _ _ (by simpa using hi), List.getElem_replicate]
    rw [hrow]
    rcases Nat.lt_or_ge j c with hj | hj
    · rw [List.getD_eq_getElem _ _ (by simpa using hj), List.getElem_replicate]
    · rw [List.getD_eq_default _ _ (by simpa using hj)]
  · have hrow : (List.replicate r (List.replicate c (0:ℚ))).getD i [] = [] := by
      rw [List.getD_eq_default _ _ (by simpa using hi)]
    rw [hrow]
    rfl

/-- Row lengths of `zeros`. -/
theorem zeros_row_length (r c i : ℕ) (h : i < r) :
    ((zeros r c).getD i []).length = c := by
  unfold zeros
  have hrow : (List.replicate r (List.replicate c (0:ℚ))).getD i []
      = List.replicate c 0 := by
    rw [List.getD_eq_getElem _ _ (by simpa using h), List.getElem_replicate]
  rw [hrow, List.length_replicate]

/-- Claim C8: the matrix returned by the periodic cluster-covariance path
`_get_lcov_clusterp` is diagonal: every off-diagonal entry equals zero (the
loop writes only `cov[i, i]` into an `np.zeros` matrix), and each diagonal
entry is the effective per-dimension circular variance derived from the
weighted cosine/sine resultant length of the wrapped coordinate column. -/
theorem get_lcov_clusterp_diagonal (qcos qsin qsqrt : ℚ → ℚ) (N Ntot : ℕ)
    (x : List (List ℚ)) (clroots : List ℕ) (idcl : ℕ) (probs : List ℚ)
    (cell : List ℚ) :
    (∀ i j, i ≠ j →
      getEntry (_get_lcov_clusterp qcos qsin qsqrt N Ntot x clroots idcl probs
        cell) i j = 0) ∧
    (∀ i, i < ncols x →
      getEntry (_get_lcov_clusterp qcos qsin qsqrt N Ntot x clroots idcl probs
          cell) i i
        = effectiveCircularVariance qcos qsin qsqrt
            (clusterpWw N Ntot clroots idcl probs)
            (clusterpWw N Ntot clroots idcl probs).sum
            (wrappedCol x cell i)) := by
  have main := foldl_range_invariant
    (fun t M => M.length = ncols x ∧
      (∀ i j, i ≠ j → getEntry M i j = 0) ∧
      (∀ i, i < ncols x → ((M.getD i []).length = ncols x)) ∧
      (∀ i, i < t → getEntry M i i
        = effectiveCircularVariance qcos qsin qsqrt
            (clusterpWw N Ntot clroots idcl probs)
            (clusterpWw N Ntot clroots idcl probs).sum
            (wrappedCol x cell i)))
    (fun M i => setEntry M i i
      (effectiveCircularVariance qcos qsin qsqrt
        (clusterpWw N Ntot clroots idcl probs)
        (clusterpWw N Ntot clroots idcl probs).sum
        (wrappedCol x cell i)))
    (ncols x) (zeros (ncols x) (ncols x))
    ⟨by simp [zeros], fun i j _ => getEntry_zeros _ _ i j,
      fun i hi => zeros_row_length _ _ i hi, fun i hi => absurd hi (by omega)⟩
    ?_
  · have hfold : _get_lcov_clusterp qcos qsin qsqrt N Ntot x clroots idcl probs
        cell
        = (List.range (ncols x)).foldl
            (fun M i => setEntry M i i
              (effectiveCircularVariance qcos qsin qsqrt
                (clusterpWw N Ntot clroots idcl probs)
                (clusterpWw N Ntot clroots idcl probs).sum
                (wrappedCol x cell i)))
            (zeros (ncols x) (ncols x)) := rfl
    rw [hfold]
    exact ⟨main.2.1, fun i hi => main.2.2.2 i hi⟩
  · rintro t M ht ⟨hlen, hoff, hrow, hdiag⟩
    refine ⟨?_, ?_, ?_, ?_⟩
    · rw [setEntry_length]
      exact hlen
    · intro i j hij
      rw [getEntry_setEntry_ne _ _ _ _ _ _ (by omega)]
      exact hoff i j hij
    · intro i hi
      rw [setEntry_row_length]
      exact hrow i hi
    · intro i hi
      rcases Nat.lt_or_ge i t with hlt | hge
      · rw [getEntry_setEntry_ne _ _ _ _ _ _ (by omega)]
        exact hdiag i hlt
      · have hit : i = t := by omega
        subst hit
        rw [getEntry_setEntry_self]
        · omega
        · rw [hrow i ht]
          exact ht

/-- Witness for C8 at a concrete input: one 2-D point, periods `[1, 1]`,
entries `(0,1)` (off-diagonal) and `(0,0)` (diagonal). -/
theorem get_lcov_clusterp_diagonal_witness :
    ((0 : ℕ) ≠ 1 ∧
      getEntry (_get_lcov_clusterp id id id 1 1 [[0, 0]] [0] 0 [1] [1, 1])
        0 1 = 0) ∧
    (0 < ncols [[(0 : ℚ), 0]] ∧
      getEntry (_get_lcov_clusterp id id id 1 1 [[0, 0]] [0] 0 [1] [1, 1])
          0 0
        = effectiveCircularVariance id id id (clusterpWw 1 1 [0] 0 [1])
            (clusterpWw 1 1 [0] 0 [1]).sum (wrappedCol [[0, 0]] [1, 1] 0)) :=
  ⟨⟨by decide,
    (get_lcov_clusterp_diagonal id id id 1 1 [[0, 0]] [0] 0 [1] [1, 1]).1 0 1
      (by decide)⟩,
   ⟨by decide,
    (get_lcov_clusterp_diagonal id id id 1 1 [[0, 0]] [0] 0 [1] [1, 1]).2 0
      (by decide)⟩⟩

/-- `insertSorted` permutes to a cons. -/
theorem insertSorted_perm (x : ℕ) (l : List ℕ) :
    (insertSorted x l).Perm (x :: l) := by
  induction l with
  | nil => rfl
  | cons y ys ih =>
    unfold insertSorted
    split
    · rfl
    · exact (ih.cons y).trans (List.Perm.swap x y ys)

/-- Membership in `insertSorted`. -/
theorem mem_insertSorted {x y : ℕ} {l : List ℕ} :
    y ∈ insertSorted x l ↔ y = x ∨ y ∈ l := by
  rw [(insertSorted_perm x l).mem_iff, List.mem_cons]

/-- `insertSorted` keeps a weakly sorted list sorted. -/
theorem insertSorted_sorted (x : ℕ) (l : List ℕ) (h : l.Sorted (· ≤ ·)) :
    (insertSorted x l).Sorted (· ≤ ·) := by
  induction l with
  | nil => simp [insertSorted]
  | cons y ys ih =>
    rw [List.sorted_cons] at h
    unfold insertSorted
    split
    · rename_i hxy
      rw [List.sorted_cons]
      refine ⟨?_, List.sorted_cons.2 h⟩
      intro b hb
      rcases List.mem_cons.1 hb with rfl | hb
      · exact hxy
      · exact hxy.trans (h.1 b hb)
    · rename_i hxy
      rw [List.sorted_cons]
      refine ⟨?_, ih h.2⟩
      intro b hb
      rcases mem_insertSorted.1 hb with rfl | hb
      · omega
      · exact h.1 b hb

/-- The insertion-sort fold permutes to its input. -/
theorem foldr_insertSorted_perm (l : List ℕ) :
    (l.foldr insertSorted []).Perm l := by
  induction l with
  | nil => rfl
  | cons x xs ih =>
    rw [List.foldr_cons]
    exact (insertSorted_perm x _).trans (ih.cons x)

/-- The insertion-sort fold is sorted. -/
theorem foldr_insertSorted_sorted (l : List ℕ) :
    (l.foldr insertSorted []).Sorted (· ≤ ·) := by
  induction l with
  | nil => simp
  | cons x xs ih => exact insertSorted_sorted x _ ih

/-- `uniqueSorted` is a permutation of `dedup`. -/
theorem uniqueSorted_perm (l : List ℕ) : (uniqueSorted l).Perm l.dedup :=
  foldr_insertSorted_perm l.dedup

/-- `uniqueSorted` has no duplicates. -/
theorem uniqueSorted_nodup (l : List ℕ) : (uniqueSorted l).Nodup :=
  (uniqueSorted_perm l).nodup_iff.2 l.nodup_dedup

/-- Membership in `uniqueSorted` is membership in the original list. -/
theorem mem_uniqueSorted {l : List ℕ} {v : ℕ} :
    v ∈ uniqueSorted l ↔ v ∈ l := by
  rw [(uniqueSorted_perm l).mem_iff, List.mem_dedup]

/-- `uniqueSorted` is strictly sorted. -/
theorem uniqueSorted_sorted_lt (l : List ℕ) :
    (uniqueSorted l).Sorted (· < ·) :=
  List.Sorted.lt_of_le (foldr_insertSorted_sorted l.dedup) (uniqueSorted_nodup l)

/-- Entries of a strictly sorted list increase with the index. -/
theorem sorted_lt_getD_lt (c : List ℕ) (hs : c.Sorted (· < ·)) (i j : ℕ)
    (hij : i < j) (hj : j < c.length) : c.getD i 0 < c.getD j 0 := by
  have hi : i < c.length := hij.trans hj
  rw [List.getD_eq_get _ _ hi, List.getD_eq_get _ _ hj]
  exact List.pairwise_iff_get.1 hs ⟨i, hi⟩ ⟨j, hj⟩ hij

/-- Unless the two smallest distinct label values are exactly 0 and 1, every
sorted unique value from position 1 on strictly exceeds its position. -/
theorem uniqueSorted_getD_ge (c : List ℕ) (hs : c.Sorted (· < ·))
    (hcond : ¬(c.getD 0 0 = 0 ∧ c.getD 1 0 = 1)) (k : ℕ) (h1 : 1 ≤ k)
    (hk : k < c.length) : k + 1 ≤ c.getD k 0 := by
  induction k with
  | zero => omega
  | succ n ih =>
    rcases Nat.eq_zero_or_pos n with rfl | hn
    · simp only [Nat.zero_add] at hk ⊢
      have h01 : c.getD 0 0 < c.getD 1 0 := sorted_lt_getD_lt c hs 0 1 (by omega) hk
      rcases Nat.eq_zero_or_pos (c.getD 0 0) with h0 | h0
      · have : c.getD 1 0 ≠ 1 := fun h => hcond ⟨h0, h⟩
        omega
      · omega
    · have hlt : c.getD n 0 < c.getD (n + 1) 0 :=
        sorted_lt_getD_lt c hs n (n + 1) (by omega) hk
      have := ih hn (by omega)
      omega

/-- Pointwise characterisation of the in-place relabelling loop when the
collision `center_idx = [0, 1, ...]` is excluded: each label value is replaced
by one plus its position among the sorted unique values. -/
theorem relabelPass_char (labels : List ℕ)
    (hcond : ¬((uniqueSorted labels).getD 0 0 = 0 ∧
      (uniqueSorted labels).getD 1 0 = 1)) :
    relabelPass (uniqueSorted labels) (uniqueSorted labels).length labels
      = labels.map (fun v => (uniqueSorted labels).indexOf v + 1) := by
  set c := uniqueSorted labels with hc
  have hnodup : c.Nodup := uniqueSorted_nodup labels
  have hslt : c.Sorted (· < ·) := uniqueSorted_sorted_lt labels
  have hmemc : ∀ v ∈ labels, v ∈ c := fun v hv => mem_uniqueSorted.2 hv
  have hidx_lt : ∀ v ∈ labels, c.indexOf v < c.length := by
    intro v hv
    exact List.indexOf_lt_length.2 (hmemc v hv)
  have hgetD_idx : ∀ v ∈ labels, c.getD (c.indexOf v) 0 = v := by
    intro v hv
    rw [List.getD_eq_get _ _ (hidx_lt v hv)]
    exact List.indexOf_get (hidx_lt v hv)
  have hidx_getD : ∀ t, t < c.length → c.indexOf (c.getD t 0) = t := by
    intro t ht
    rw [List.getD_eq_getElem _ _ ht]
    exact List.indexOf_getElem hnodup t ht
  have main := foldl_range_invariant
    (fun t ls => ls = labels.map
      (fun v => if c.indexOf v < t then c.indexOf v + 1 else v))
    (fun ls k => ls.map (fun v => if v = c.getD k 0 then k + 1 else v))
    c.length labels ?base ?step
  · unfold relabelPass
    rw [main]
    apply List.map_congr_left
    intro v hv
    rw [if_pos (hidx_lt v hv)]
  · show labels = _
    have : ∀ v ∈ labels,
        (if c.indexOf v < 0 then c.indexOf v + 1 else v) = v := by
      intro v _
      rw [if_neg (by omega)]
    rw [List.map_congr_left this]
    simp
  · intro t ls ht hls
    subst hls
    beta_reduce
    rw [List.map_map]
    apply List.map_congr_left
    intro v hv
    simp only [Function.comp_apply]
    rcases Nat.lt_or_ge (c.indexOf v) t with hlt | hge
    · have hckt : t + 1 ≤ c.getD t 0 :=
        uniqueSorted_getD_ge c hslt hcond t (by omega) ht
      rw [if_pos hlt, if_neg (by omega), if_pos (by omega)]
    · rw [if_neg (show ¬(List.indexOf v c < t) by omega)]
      rcases eq_or_ne v (c.getD t 0) with heq | hne
      · have hidx : List.indexOf v c = t := by
          rw [heq]
          exact hidx_getD t ht
        rw [if_pos heq, if_pos (show List.indexOf v c < t + 1 by omega), hidx]
      · have hit : List.indexOf v c ≠ t := by
          intro h
          apply hne
          rw [← hgetD_idx v hv, h]
        rw [if_neg hne, if_neg (show ¬(List.indexOf v c < t + 1) by omega)]

/-- A `getD` entry within bounds is a member. -/
theorem getD_mem {α : Type} (l : List α) (j : ℕ) (d : α) (h : j < l.length) :
    l.getD j d ∈ l := by
  rw [List.getD_eq_getElem _ _ h]
  exact List.getElem_mem h

/-- Claim C4 (amended): provided grid points 0 and 1 are not both cluster
centres (i.e. the two smallest distinct label values are not exactly 0 and 1)
and `cluster_center_idx` counts the distinct label values, the label array
returned by `generate_probability_model` is a dense relabelling onto
`{1, ..., K}`: every grid point receives a label in `{1, ..., K}`, every value
in `{1, ..., K}` is used, and distinct input clusters map to distinct output
labels.  Without that proviso the in-place loop collapses clusters. -/
theorem gpm_dense_relabel (qcos qsin qsqrt qlog : ℚ → ℚ)
    (cci labels : List ℕ) (X descriptors : List (List ℚ)) (dlabels : List ℕ)
    (dweights probs : List ℚ) (cell : Option (List ℚ))
    (hcell : cellMismatch cell X = false)
    (hK : cci.length = (uniqueSorted labels).length)
    (hcond : ¬((uniqueSorted labels).getD 0 0 = 0 ∧
      (uniqueSorted labels).getD 1 0 = 1)) :
    (∀ j, j < labels.length →
      1 ≤ (gpmLabels (generate_probability_model qcos qsin qsqrt qlog cci
          labels X descriptors dlabels dweights probs cell)).getD j 0 ∧
        (gpmLabels (generate_probability_model qcos qsin qsqrt qlog cci
          labels X descriptors dlabels dweights probs cell)).getD j 0
          ≤ cci.length) ∧
    (∀ m, 1 ≤ m → m ≤ cci.length → ∃ j, j < labels.length ∧
      (gpmLabels (generate_probability_model qcos qsin qsqrt qlog cci
        labels X descriptors dlabels dweights probs cell)).getD j 0 = m) ∧
    (∀ i j, i < labels.length → j < labels.length →
      labels.getD i 0 ≠ labels.getD j 0 →
      (gpmLabels (generate_probability_model qcos qsin qsqrt qlog cci
          labels X descriptors dlabels dweights probs cell)).getD i 0
        ≠ (gpmLabels (generate_probability_model qcos qsin qsqrt qlog cci
          labels X descriptors dlabels dweights probs cell)).getD j 0) := by
  set c := uniqueSorted labels with hc
  have hout : gpmLabels (generate_probability_model qcos qsin qsqrt qlog cci
      labels X descriptors dlabels dweights probs cell)
      = labels.map (fun v => c.indexOf v + 1) := by
    have h1 : gpmLabels (generate_probability_model qcos qsin qsqrt qlog cci
        labels X descriptors dlabels dweights probs cell)
        = relabelPass c cci.length labels := by
      simp only [generate_probability_model]
      rw [if_neg (by simp [hcell])]
      rfl
    rw [h1, hK]
    exact relabelPass_char labels hcond
  have hentry : ∀ j, j < labels.length →
      (labels.map (fun v => c.indexOf v + 1)).getD j 0
        = c.indexOf (labels.getD j 0) + 1 := by
    intro j hj
    rw [List.getD_eq_getElem _ _ (by simpa using hj), List.getElem_map,
      List.getD_eq_getElem _ _ hj]
  have hidx_lt : ∀ v ∈ labels, c.indexOf v < c.length := by
    intro v hv
    exact List.indexOf_lt_length.2 (mem_uniqueSorted.2 hv)
  have hgetD_idx : ∀ v ∈ labels, c.getD (c.indexOf v) 0 = v := by
    intro v hv
    rw [List.getD_eq_get _ _ (hidx_lt v hv)]
    exact List.indexOf_get (hidx_lt v hv)
  rw [hout]
  refine ⟨?_, ?_, ?_⟩
  · intro j hj
    rw [hentry j hj]
    have := hidx_lt (labels.getD j 0) (getD_mem labels j 0 hj)
    omega
  · intro m hm1 hm2
    have hmK : m - 1 < c.length := by omega
    have hwc : c.getD (m - 1) 0 ∈ c := by
      rw [List.getD_eq_getElem _ _ hmK]
      exact List.getElem_mem hmK
    have hwl : c.getD (m - 1) 0 ∈ labels := mem_uniqueSorted.1 hwc
    rcases List.mem_iff_getElem.1 hwl with ⟨j, hj, hje⟩
    refine ⟨j, hj, ?_⟩
    rw [hentry j hj]
    have hlj : labels.getD j 0 = c.getD (m - 1) 0 := by
      rw [List.getD_eq_getElem _ _ hj, hje]
    rw [hlj]
    have : c.indexOf (c.getD (m - 1) 0) = m - 1 := by
      rw [List.getD_eq_getElem _ _ hmK]
      exact List.indexOf_getElem (uniqueSorted_nodup labels) (m - 1) hmK
    omega
  · intro i j hi hj hne
    rw [hentry i hi, hentry j hj]
    intro heq
    apply hne
    have hii : c.indexOf (labels.getD i 0) = c.indexOf (labels.getD j 0) := by
      omega
    rw [← hgetD_idx (labels.getD i 0) (getD_mem labels i 0 hi),
      ← hgetD_idx (labels.getD j 0) (getD_mem labels j 0 hj), hii]

/-- Claim C4 (counterexample): with two grid points, each its own cluster
centre (labels `[0, 1]`, centres `[0, 1]`), the relabelling loop first maps
label 0 to 1, and the next iteration maps every label 1 — including the points
it has just written — to 2.  The returned labels are `[2, 2]`: the value 1 in
`{1, ..., K} = {1, 2}` is never used and the two distinct input clusters
collapse onto one output label, so the map is not a bijection onto
`{1, ..., K}`. -/
theorem gpm_relabel_collapse :
    gpmLabels (generate_probability_model id id id id [0, 1] [0, 1]
        [[0], [1]] [[0]] [0] [1] [1, 1] none) = [2, 2] ∧
      (1 : ℕ) ∉ gpmLabels (generate_probability_model id id id id [0, 1] [0, 1]
        [[0], [1]] [[0]] [0] [1] [1, 1] none) ∧
      (gpmLabels (generate_probability_model id id id id [0, 1] [0, 1]
          [[0], [1]] [[0]] [0] [1] [1, 1] none)).getD 0 0
        = (gpmLabels (generate_probability_model id id id id [0, 1] [0, 1]
          [[0], [1]] [[0]] [0] [1] [1, 1] none)).getD 1 0 := by
  have h : gpmLabels (generate_probability_model id id id id [0, 1] [0, 1]
      [[0], [1]] [[0]] [0] [1] [1, 1] none) = [2, 2] := by rfl
  refine ⟨h, ?_, ?_⟩
  · rw [h]
    decide
  · rw [h]
    rfl

/-- Witness for C4 at a concrete input: labels `[0, 2]` (centres 0 and 2, so
the collision condition does not apply), centres `[0, 2]`. -/
theorem gpm_dense_relabel_witness :
    (cellMismatch none [[(0 : ℚ)], [1]] = false ∧
      ([0, 2] : List ℕ).length = (uniqueSorted [0, 2]).length ∧
      ¬((uniqueSorted [0, 2]).getD 0 0 = 0 ∧
        (uniqueSorted [0, 2]).getD 1 0 = 1)) ∧
    (∀ m, 1 ≤ m → m ≤ ([0, 2] : List ℕ).length → ∃ j,
      j < ([0, 2] : List ℕ).length ∧
      (gpmLabels (generate_probability_model id id id id [0, 2] [0, 2]
        [[0], [1]] [[0]] [0] [1] [1, 1] none)).getD j 0 = m) :=
  ⟨⟨by decide, by decide, by decide⟩,
    (gpm_dense_relabel id id id id [0, 2] [0, 2] [[0], [1]] [[0]] [0] [1] [1, 1]
      none (by decide) (by decide) (by decide)).2.1⟩

/-- Specification of the masked argmax on a non-empty member set: it is a
member index, within bounds, and its density is maximal among members. -/
theorem maskedArgmax_spec (probs : List ℚ) (labels : List ℕ) (c : ℕ)
    (hne : ∃ j, j < probs.length ∧ labels.getD j 0 = c) :
    maskedArgmax probs labels c < probs.length ∧
    labels.getD (maskedArgmax probs labels c) 0 = c ∧
    ∀ j, j < probs.length → labels.getD j 0 = c →
      probs.getD j 0 ≤ probs.getD (maskedArgmax probs labels c) 0 := by
  obtain ⟨j0, hj0, hl0⟩ := hne
  have hj0m : j0 ∈ (List.range probs.length).filter
      (fun i => labels.getD i 0 == c) := by
    rw [List.mem_filter]
    exact ⟨List.mem_range.2 hj0, by simpa using hl0⟩
  cases harg : ((List.range probs.length).filter
      (fun i => labels.getD i 0 == c)).argmax (fun i => probs.getD i 0) with
  | none =>
    rw [List.argmax_eq_none] at harg
    rw [harg] at hj0m
    cases hj0m
  | some m =>
    have hmm : m ∈ (List.range probs.length).filter
        (fun i => labels.getD i 0 == c) := List.argmax_mem harg
    rw [List.mem_filter] at hmm
    have hresult : maskedArgmax probs labels c = m := by
      unfold maskedArgmax
      rw [harg]
      rfl
    rw [hresult]
    refine ⟨List.mem_range.1 hmm.1, by simpa using hmm.2, ?_⟩
    intro j hj hl
    have hjm : j ∈ (List.range probs.length).filter
        (fun i => labels.getD i 0 == c) := by
      rw [List.mem_filter]
      exact ⟨List.mem_range.2 hj, by simpa using hl⟩
    exact List.le_of_mem_argmax hjm harg

/-- Membership in the self-rooted index list. -/
theorem mem_selfRooted {labels : List ℕ} {r : ℕ} :
    r ∈ selfRooted labels ↔ r < labels.length ∧ labels.getD r 0 = r := by
  unfold selfRooted
  rw [List.mem_filter, List.mem_range]
  simp

/-- The self-rooted index list has no duplicates. -/
theorem selfRooted_nodup (labels : List ℕ) : (selfRooted labels).Nodup :=
  (List.nodup_range _).filter _

/-- In a duplicate-free list, the element at position `t` does not occur among
the first `t` elements. -/
theorem get_not_mem_take {α : Type} (l : List α) (h : l.Nodup) (t : ℕ)
    (ht : t < l.length) : l.get ⟨t, ht⟩ ∉ l.take t := by
  intro hmem
  have hdrop : l.get ⟨t, ht⟩ ∈ l.drop t := by
    rw [← List.getElem_cons_drop l t ht]
    exact List.mem_cons_self _ _
  exact (List.Pairwise.rel_of_mem_take_of_mem_drop h hmem hdrop) rfl

/-- Characterisation of the centre-recomputation pass run on the self-rooted
centres of a valid label assignment (every label points at a self-labelled
root): every final centre at position `i` is the masked argmax of its root's
cluster, and every point's final label is the masked argmax of its original
root's cluster. -/
theorem recomputePass_spec (probs : List ℚ) (labels : List ℕ)
    (hlen : probs.length = labels.length)
    (hroot : ∀ j, j < labels.length →
      labels.getD j 0 < labels.length ∧
        labels.getD (labels.getD j 0) 0 = labels.getD j 0) :
    (recomputePass probs (selfRooted labels) labels).1.length
        = (selfRooted labels).length ∧
    (recomputePass probs (selfRooted labels) labels).2.length
        = labels.length ∧
    (∀ i, ∀ h : i < (selfRooted labels).length,
      (recomputePass probs (selfRooted labels) labels).1.getD i 0
        = maskedArgmax probs labels ((selfRooted labels).get ⟨i, h⟩)) ∧
    (∀ j, j < labels.length →
      (recomputePass probs (selfRooted labels) labels).2.getD j 0
        = maskedArgmax probs labels (labels.getD j 0)) := by
  set R := selfRooted labels with hR
  set n := labels.length with hn
  have hrN : R.Nodup := selfRooted_nodup labels
  have hlabmem : ∀ j, j < n → labels.getD j 0 ∈ R := by
    intro j hj
    exact mem_selfRooted.2 (hroot j hj)
  have hnewcP : ∀ v ∈ R, maskedArgmax probs labels v < n ∧
      labels.getD (maskedArgmax probs labels v) 0 = v := by
    intro v hv
    obtain ⟨hvn, hvr⟩ := mem_selfRooted.1 hv
    obtain ⟨h1, h2, _⟩ := maskedArgmax_spec probs labels v
      ⟨v, by omega, hvr⟩
    exact ⟨by omega, h2⟩
  have hinj : ∀ v ∈ R, ∀ w ∈ R, maskedArgmax probs labels v = w → v = w := by
    intro v hv w hw he
    obtain ⟨_, h2⟩ := hnewcP v hv
    rw [he] at h2
    obtain ⟨_, hwr⟩ := mem_selfRooted.1 hw
    rw [hwr] at h2
    exact h2.symm
  have main := foldl_range_invariant
    (fun t st => st.1.length = R.length ∧ st.2.length = n ∧
      (∀ i, ∀ h : i < R.length, st.1.getD i 0
        = if i < t then maskedArgmax probs labels (R.get ⟨i, h⟩)
          else R.get ⟨i, h⟩) ∧
      (∀ j, j < n → st.2.getD j 0
        = if labels.getD j 0 ∈ R.take t
          then maskedArgmax probs labels (labels.getD j 0)
          else labels.getD j 0))
    (recomputeStep probs) R.length (R, labels) ?base ?step
  · unfold recomputePass
    refine ⟨main.1, main.2.1, ?_, ?_⟩
    · intro i h
      rw [main.2.2.1 i h, if_pos h]
    · intro j hj
      rw [main.2.2.2 j hj, if_pos]
      rw [List.take_length]
      exact hlabmem j hj
  · refine ⟨rfl, rfl, ?_, ?_⟩
    · intro i h
      rw [if_neg (by omega)]
      exact List.getD_eq_get _ _ h
    · intro j hj
      rw [if_neg (by simp)]
  · rintro t st ht ⟨hl1, hl2, hcl3, hcl4⟩
    have hr : st.1.getD t 0 = R.get ⟨t, ht⟩ := by
      rw [hcl3 t ht, if_neg (by omega)]
    have hrmem : R.get ⟨t, ht⟩ ∈ R := List.get_mem R t ht
    have hrt : R.get ⟨t, ht⟩ ∉ R.take t := get_not_mem_take R hrN t ht
    have hnotroot : ∀ v ∈ R.take t,
        maskedArgmax probs labels v ≠ R.get ⟨t, ht⟩ := by
      intro v hv he
      have hvR : v ∈ R := List.mem_of_mem_take hv
      have := hinj v hvR (R.get ⟨t, ht⟩) hrmem he
      rw [this] at hv
      exact hrt hv
    have hvne : ∀ v ∈ R.take t, v ≠ R.get ⟨t, ht⟩ := by
      intro v hv he
      rw [he] at hv
      exact hrt hv
    have hfilter : (List.range probs.length).filter
        (fun i => st.2.getD i 0 == R.get ⟨t, ht⟩)
        = (List.range probs.length).filter
          (fun i => labels.getD i 0 == R.get ⟨t, ht⟩) := by
      apply List.filter_congr
      intro i hi
      have hin : i < n := by
        rw [List.mem_range] at hi
        omega
      rw [hcl4 i hin]
      by_cases hp : labels.getD i 0 ∈ R.take t
      · rw [if_pos hp]
        rw [beq_eq_false_iff_ne.2 (hnotroot _ hp),
          beq_eq_false_iff_ne.2 (hvne _ hp)]
      · rw [if_neg hp]
    have hargm : maskedArgmax probs st.2 (st.1.getD t 0)
        = maskedArgmax probs labels (R.get ⟨t, ht⟩) := by
      rw [hr]
      unfold maskedArgmax
      rw [hfilter]
    have htake : ∀ v : ℕ, v ∈ R.take (t + 1) ↔ v ∈ R.take t ∨ v = R.get ⟨t, ht⟩ := by
      intro v
      rw [List.take_succ, List.mem_append]
      have : R[t]? = some (R.get ⟨t, ht⟩) := by
        rw [List.getElem?_eq_getElem ht]
        rfl
      rw [this]
      simp
    unfold recomputeStep
    refine ⟨by rw [List.length_set]; exact hl1, by rw [List.length_map]; exact hl2,
      ?_, ?_⟩
    · intro i h
      rcases eq_or_ne i t with rfl | hne
      · rw [getD_set_self _ _ _ _ (by omega), hargm, if_pos (by omega)]
      · rw [getD_set_ne _ _ _ _ _ hne, hcl3 i h]
        rcases Nat.lt_or_ge i t with hlt | hge
        · rw [if_pos hlt, if_pos (by omega)]
        · rw [if_neg (by omega), if_neg (by omega)]
    · intro j hj
      have hjlen : j < st.2.length := by omega
      have hmap : (st.2.map (fun v => if v = st.1.getD t 0
          then maskedArgmax probs st.2 (st.1.getD t 0) else v)).getD j 0
          = (fun v => if v = st.1.getD t 0
            then maskedArgmax probs st.2 (st.1.getD t 0) else v)
            (st.2.getD j 0) := by
        rw [List.getD_eq_getElem _ _ (by rw [List.length_map]; omega),
          List.getElem_map, List.getD_eq_getElem _ _ hjlen]
      rw [hmap]
      simp only []
      rw [hcl4 j hj]
      by_cases hp : labels.getD j 0 ∈ R.take t
      · rw [if_pos hp]
        rw [if_neg ?hne1, if_pos ((htake _).2 (Or.inl hp))]
        case hne1 =>
          rw [hr]
          exact hnotroot _ hp
      · rw [if_neg hp]
        rcases eq_or_ne (labels.getD j 0) (R.get ⟨t, ht⟩) with heq | hne
        · rw [if_pos (by rw [hr]; exact heq), hargm,
            if_pos ((htake _).2 (Or.inr heq)), heq]
        · rw [if_neg (by rw [hr]; exact hne), if_neg ?hne2]
          case hne2 =>
            rw [htake]
            push_neg
            exact ⟨hp, hne⟩

/-- Claim C5: whenever the recompute branch of `quick_shift_refinement` runs —
i.e. at least one cluster's mass fraction exceeds `thrpcl`, which is what the
source's `to_merge` flag actually records (the merge loop itself never changes
anything) — every centre recorded in the result
is a member of its own final cluster, is its cluster's own label, and carries
the maximal density among the points of that final cluster. -/
theorem qsr_recomputed_centers_are_density_maxima
    (X : List (List ℚ)) (cci labels : List ℕ) (probs : List ℚ)
    (cell : Option (List ℚ)) (thrpcl : ℚ)
    (hcell : cellMismatch cell X = false)
    (hlen : probs.length = labels.length)
    (hroot : ∀ j, j < labels.length →
      labels.getD j 0 < labels.length ∧
        labels.getD (labels.getD j 0) 0 = labels.getD j 0)
    (htrig : ∃ k, k < cci.length ∧
      thrpcl < massFrac probs labels (cci.getD k 0))
    (cci2 labels2 : List ℕ)
    (hres : quick_shift_refinement X cci labels probs cell thrpcl
      = .ok (cci2, labels2)) :
    ∀ c ∈ cci2, labels2.getD c 0 = c ∧
      ∀ j, j < labels.length → labels2.getD j 0 = c →
        probs.getD j 0 ≤ probs.getD c 0 := by
  rw [qsr_eq X cci labels probs cell thrpcl hcell, if_pos htrig] at hres
  have hpair : recomputePass probs (selfRooted labels) labels
      = (cci2, labels2) := by
    injection hres
  obtain ⟨hL1, hL2, hC, hJ⟩ := recomputePass_spec probs labels hlen hroot
  rw [hpair] at hL1 hL2 hC hJ
  intro c hc
  obtain ⟨⟨i, hi⟩, hig⟩ := List.mem_iff_get.1 hc
  have hiR : i < (selfRooted labels).length := by
    rw [← hL1]
    exact hi
  have hcval : c = maskedArgmax probs labels
      ((selfRooted labels).get ⟨i, hiR⟩) := by
    rw [← hig, ← List.getD_eq_get _ _ hi]
    exact hC i hiR
  set r := (selfRooted labels).get ⟨i, hiR⟩ with hrdef
  have hrmem : r ∈ selfRooted labels := List.get_mem _ i hiR
  obtain ⟨hrn, hrl⟩ := mem_selfRooted.1 hrmem
  obtain ⟨hclt, hclab, hmax⟩ := maskedArgmax_spec probs labels r
    ⟨r, by omega, hrl⟩
  rw [← hcval] at hclt hclab hmax
  have hcn : c < labels.length := by omega
  constructor
  · rw [hJ c hcn, hclab, hcval]
  · intro j hj hjc
    rw [hJ j hj] at hjc
    have hvroot : labels.getD j 0 ∈ selfRooted labels :=
      mem_selfRooted.2 (hroot j hj)
    obtain ⟨hvn, hvr⟩ := mem_selfRooted.1 hvroot
    obtain ⟨_, hvlab, _⟩ := maskedArgmax_spec probs labels (labels.getD j 0)
      ⟨labels.getD j 0, by omega, hvr⟩
    have hveq : labels.getD j 0 = r := by
      rw [hjc, hcval] at hvlab
      rw [← hvlab, ← hcval]
      exact hclab
    exact hmax j (by omega) hveq

/-- Witness for C5 at a concrete input: two 1-D grid points in one cluster
rooted at 0 with densities `[1, 2]` and `thrpcl = 0`; the refined centre moves
to index 1, the denser point. -/
theorem qsr_recomputed_centers_witness :
    (∃ k, k < ([0] : List ℕ).length ∧
      (0 : ℚ) < massFrac [1, 2] [0, 0] (([0] : List ℕ).getD k 0)) ∧
    (∀ c ∈ ([1] : List ℕ), ([1, 1] : List ℕ).getD c 0 = c ∧
      ∀ j, j < ([0, 0] : List ℕ).length → ([1, 1] : List ℕ).getD j 0 = c →
        ([1, 2] : List ℚ).getD j 0 ≤ ([1, 2] : List ℚ).getD c 0) := by
  have hmf : (0 : ℚ) < massFrac [1, 2] [0, 0] (([0] : List ℕ).getD 0 0) := by
    norm_num [massFrac, maskedSum, List.range_succ]
  have hres : quick_shift_refinement [[0], [1]] [0] [0, 0] [1, 2] none 0
      = .ok ([1], [1, 1]) := by
    have hargm : maskedArgmax [1, 2] [0, 0] 0 = 1 := by
      simp [maskedArgmax, List.argmax, List.argAux, List.range_succ]
    rw [qsr_eq _ _ _ _ _ _ (by rfl), if_pos ⟨0, by norm_num, hmf⟩]
    have h1 : selfRooted [0, 0] = [0] := rfl
    rw [h1]
    have hstep : recomputeStep [1, 2] ([0], [0, 0]) 0 = ([1], [1, 1]) := by
      unfold recomputeStep
      norm_num [hargm]
    have hr1 : List.range (([0] : List ℕ).length) = [0] := rfl
    unfold recomputePass
    rw [hr1, List.foldl_cons, hstep, List.foldl_nil]
  exact ⟨⟨0, by norm_num, hmf⟩,
    qsr_recomputed_centers_are_density_maxima [[0], [1]] [0] [0, 0] [1, 2] none
      0 (by rfl) (by rfl) (by decide) ⟨0, by norm_num, hmf⟩ [1] [1, 1] hres⟩
